import Mathlib

/-!
Verification development for the oracle price-reporting module
(`src/cmd/oracle.rs` of helium-wallet-rs).

The module is shallowly embedded:

* `Decimal` models `rust_decimal::Decimal`: a sign/96-bit-coefficient/scale
  fixed-point decimal.  We store the signed coefficient as an `Int` (the sign
  flag plus 96-bit magnitude collapse to a signed integer; the only value this
  identifies is "negative zero", which no code path here constructs) and the
  scale as a `Nat` (rust_decimal invariant: scale ≤ 28, |coefficient| < 2^96).
* `Price` wraps a `Decimal` exactly as the Rust `struct Price(Decimal)` does.
* Panics (`panic!`, `.unwrap()` on arithmetic) are modelled as `Except`
  errors / `Option.none`: a panic never returns a value.
* The `f32` weights of the aggregator are modelled as exact rationals.  Every
  finite `f32` is an exact rational, and on all inputs appearing in the claims
  (0, 1, 2, 3, and the derived 1/2) IEEE single-precision `+`, `/` and
  `Decimal::from_f32` are exact, so the rational model coincides with the
  source there.
-/

namespace OracleSpec

/-- Model of `rust_decimal::Decimal`: signed coefficient `mantissa` with
`|mantissa| < 2^96` and decimal `scale ≤ 28`; the represented value is
`mantissa / 10 ^ scale`. -/
structure Decimal where
  mantissa : Int
  scale : Nat
deriving Repr, DecidableEq

/-- Rational value represented by a `Decimal`. -/
def Decimal.toRat (d : Decimal) : ℚ := (d.mantissa : ℚ) / (10 : ℚ) ^ d.scale

/-- Scale-reduction loop used by rust_decimal multiplication: while the
coefficient does not fit in 96 bits (or the scale exceeds 28) and the scale is
still positive, divide the coefficient by 10 (dropping one decimal digit) and
decrement the scale; fail (overflow) if the coefficient still does not fit at
scale 0.  rust_decimal rounds the final dropped digit; we model the drop as
truncation toward zero — the difference is confined to inexact reductions,
which no theorem below relies on. -/
def mulReduce : Int → Nat → Option Decimal
  | m, 0 => if m.natAbs < 2 ^ 96 then some ⟨m, 0⟩ else none
  | m, e + 1 =>
    if m.natAbs < 2 ^ 96 ∧ e + 1 ≤ 28 then some ⟨m, e + 1⟩
    else mulReduce (m.tdiv 10) e

/-- Model of `Decimal::checked_mul`: multiply coefficients, add scales, then
reduce; `none` is rust_decimal's multiplication overflow. -/
def Decimal.checked_mul (a b : Decimal) : Option Decimal :=
  mulReduce (a.mantissa * b.mantissa) (a.scale + b.scale)

/-- Model of rust_decimal's `ToPrimitive::to_u64`: `None` for negative values,
otherwise truncate the fractional part and require the integer part to fit in
64 bits. -/
def Decimal.to_u64 (d : Decimal) : Option Nat :=
  if d.mantissa < 0 then none
  else
    let t := d.mantissa.toNat / 10 ^ d.scale
    if t < 2 ^ 64 then some t else none

/-- Model of rust_decimal addition (`AddAssign`): align to the larger scale and
add coefficients.  `none` stands for the overflow panic; the rescaling fallback
rust_decimal attempts near 96-bit overflow is not modelled — every addition in
the claims stays far below the bound. -/
def Decimal.add (a b : Decimal) : Option Decimal :=
  let e := max a.scale b.scale
  let m := a.mantissa * (10 : Int) ^ (e - a.scale) + b.mantissa * (10 : Int) ^ (e - b.scale)
  if m.natAbs < 2 ^ 96 then some ⟨m, e⟩ else none

/-- Model of `round_dp_with_strategy(dp, RoundingStrategy::RoundHalfUp)`:
if the scale already is ≤ `dp` the value is unchanged, otherwise the dropped
digits are rounded half-up (away from zero at the midpoint). -/
def Decimal.round_dp_half_up (d : Decimal) (dp : Nat) : Decimal :=
  if d.scale ≤ dp then d
  else
    let div : Int := 10 ^ (d.scale - dp)
    let q := d.mantissa.tdiv div
    let r := d.mantissa.tmod div
    if div.natAbs ≤ 2 * r.natAbs then
      (if d.mantissa < 0 then ⟨q - 1, dp⟩ else ⟨q + 1, dp⟩)
    else ⟨q, dp⟩

/-- Errors of the oracle module.  Panics are modelled as fatal errors:
`invalidPrice` is the `to_millis`/`from_millis` panic, `noViableSources` the
`from_weights` panic on zero total weight, `overflowPanic` a rust_decimal
arithmetic panic, `invalidFormat` the `FromStr` parse failure. -/
inductive OracleError where
  | invalidPrice
  | noViableSources
  | overflowPanic
  | invalidFormat
deriving Repr, DecidableEq

/-- Rust `struct Price(Decimal)`; we identify the wrapper with its payload. -/
abbrev Price := Decimal

/-- Constant `USD_TO_PRICE_SCALAR: u64 = 100_000_000`. -/
def USD_TO_PRICE_SCALAR : Nat := 100000000

/-- `Decimal::from(USD_TO_PRICE_SCALAR)`: the integer 10^8 at scale 0. -/
def scalarDec : Decimal := ⟨(USD_TO_PRICE_SCALAR : Int), 0⟩

/-- Model of `Price::to_millis`: `checked_mul` by 10^8 then `to_u64`; either
failure reaches the `panic!("Price has been constructed with invalid data")`. -/
def Price.to_millis (p : Price) : Except OracleError Nat :=
  match Decimal.checked_mul p scalarDec with
  | some scaled =>
    match Decimal.to_u64 scaled with
    | some n => .ok n
    | none => .error .invalidPrice
  | none => .error .invalidPrice

/-- Model of `Price::from_millis`: `Decimal::from_u64` (always succeeds on a
`u64`, modelled by the range guard) then `set_scale(8)` (always succeeds since
8 ≤ 28), i.e. the coefficient is kept and the scale is set to 8. -/
def Price.from_millis (millis : Nat) : Except OracleError Price :=
  if millis < 2 ^ 64 then .ok ⟨(millis : Int), 8⟩ else .error .invalidPrice

/-- Intermediate state of the decimal-literal scanner: accumulated coefficient,
number of digits seen after the point, whether the point was seen, and how many
digits were consumed in total. -/
structure ParseState where
  mantissa : Nat
  scale : Nat
  seenPoint : Bool
  digits : Nat
deriving Repr, DecidableEq

/-- Character scanner of `Decimal::from_str`: digits accumulate into the
coefficient, at most one decimal point, underscores are skipped as digit
separators, anything else rejects; at least one digit is required. -/
def parseCore : List Char → ParseState → Option ParseState
  | [], st => if st.digits = 0 then none else some st
  | c :: rest, st =>
    if c.isDigit then
      parseCore rest
        ⟨st.mantissa * 10 + (c.toNat - 48),
         if st.seenPoint then st.scale + 1 else st.scale, st.seenPoint, st.digits + 1⟩
    else if c = '.' then
      if st.seenPoint then none else parseCore rest ⟨st.mantissa, st.scale, true, st.digits⟩
    else if c = '_' then parseCore rest st
    else none

/-- Model of `Decimal::from_str`: optional sign, then the digit scanner; the
coefficient must fit in 96 bits and the scale in 28 digits (rust_decimal
reports overflow otherwise). -/
def Decimal.from_str (s : String) : Option Decimal :=
  let cs := s.toList
  let signAndRest : Bool × List Char :=
    match cs with
    | '-' :: r => (true, r)
    | '+' :: r => (false, r)
    | r => (false, r)
  match parseCore signAndRest.2 ⟨0, 0, false, 0⟩ with
  | some st =>
    if st.mantissa < 2 ^ 96 ∧ st.scale ≤ 28 then
      some ⟨if signAndRest.1 then -(st.mantissa : Int) else (st.mantissa : Int), st.scale⟩
    else none
  | none => none

/-- Splits a character list at the first `e`/`E`, as `from_scientific` does;
`none` when no exponent marker is present. -/
def splitOnExp : List Char → Option (List Char × List Char)
  | [] => none
  | c :: rest =>
    if c = 'e' ∨ c = 'E' then some ([], rest)
    else match splitOnExp rest with
      | some (pre, post) => some (c :: pre, post)
      | none => none

/-- Parses the exponent digits of scientific notation as a natural number. -/
def parseExpDigits : List Char → Option Nat
  | [] => none
  | cs => cs.foldlM (fun acc c => if c.isDigit then some (acc * 10 + (c.toNat - 48)) else none) 0

/-- Model of `Decimal::from_scientific`: split on `e`/`E`, parse the base with
`from_str` and the exponent as an integer, then shift the scale: a negative
exponent adds to the scale (failing above 28), a positive exponent first
consumes the scale and then multiplies the coefficient (failing on 96-bit
overflow, where the source panics or overflows). -/
def Decimal.from_scientific (s : String) : Option Decimal :=
  match splitOnExp s.toList with
  | none => none
  | some (base, expPart) =>
    (Decimal.from_str (String.mk base)).bind fun b =>
      match expPart with
      | '-' :: ds =>
        (parseExpDigits ds).bind fun ex =>
          if b.scale + ex ≤ 28 then some ⟨b.mantissa, b.scale + ex⟩ else none
      | ds =>
        (parseExpDigits (if ds.head? = some '+' then ds.tail else ds)).bind fun ex =>
          if ex ≤ b.scale then some ⟨b.mantissa, b.scale - ex⟩
          else
            let m := b.mantissa * (10 : Int) ^ (ex - b.scale)
            if m.natAbs < 2 ^ 96 then some ⟨m, 0⟩ else none

/-- Names recognized by `impl FromStr for Price` as live price sources. -/
def sourceNames : List String := ["coingecko", "bilaxy", "binance", "binance-us", "binance-int"]

/-- Model of `impl FromStr for Price`: the recognized source names dispatch to
the corresponding network fetch (supplied as the environment `fetch`, keyed by
the canonical source name — `binance` is an alias of `binance-us`); any other
string is parsed as a decimal literal, falling back to scientific notation,
and rounded to 8 fractional digits half-up; parse failure is the
`InvalidPriceFormat` error. -/
def Price.from_str (fetch : String → Except OracleError Price) (s : String) :
    Except OracleError Price :=
  if s = "coingecko" then fetch "coingecko"
  else if s = "bilaxy" then fetch "bilaxy"
  else if s = "binance" then fetch "binance-us"
  else if s = "binance-us" then fetch "binance-us"
  else if s = "binance-int" then fetch "binance-int"
  else
    match (Decimal.from_str s).orElse (fun _ => Decimal.from_scientific s) with
    | some d => .ok (Decimal.round_dp_half_up d 8)
    | none => .error .invalidFormat

/-- Fetch environment for exercising the literal-string path of
`Price::from_str`: every live source fails.  The literal path never consults
it. -/
def fetchFail : String → Except OracleError Price := fun _ => .error .invalidFormat

/-- Model of the `retry` crate's `retry(iterable, operation)` driver used by
the `retry!` macro: the operation (given its 0-based attempt index) runs once,
and after each failure one delay is consumed from the list to run it again;
when the delays are exhausted the last failure is returned. -/
def retryGo (op : Nat → Except E A) : List Nat → Nat → Except E A
  | [], k => op k
  | _ :: rest, k =>
    match op k with
    | .ok a => .ok a
    | .error _ => retryGo op rest (k + 1)

/-- Number of times `retryGo` invokes the operation. -/
def retryTries (op : Nat → Except E A) : List Nat → Nat → Nat
  | [], _ => 1
  | _ :: rest, k =>
    match op k with
    | .ok _ => 1
    | .error _ => 1 + retryTries op rest (k + 1)

/-- The delay iterator `Fixed::from_millis(1000).take(10)` of the `retry!`
macro: ten one-second delays. -/
def retryPolicy : List Nat := List.replicate 10 1000

/-- The `retry!` macro: run the operation under the fixed policy. -/
def run_with_retry (op : Nat → Except E A) : Except E A := retryGo op retryPolicy 0

/-- Invocation count of `run_with_retry`. -/
def run_with_retry_tries (op : Nat → Except E A) : Nat := retryTries op retryPolicy 0

/-- Model of `Price::null()`, i.e. `Decimal::from_f32(0.0).unwrap()`: zero. -/
def Price.null : Price := ⟨0, 0⟩

/-- Search for the smallest scale `e` (starting at `e`, with `fuel` candidates
left) such that `10 ^ e` is divisible by the reduced denominator `den`. -/
def findScaleAux (den : Nat) : Nat → Nat → Option Nat
  | 0, _ => none
  | fuel + 1, e => if 10 ^ e % den == 0 then some e else findScaleAux den fuel (e + 1)

/-- Decimal representation of the reduced fraction `n / d`: smallest scale
`e ≤ 28` with `d ∣ 10 ^ e`, coefficient `n * (10 ^ e / d)`. -/
def ratToDecCore (n : Int) (d : Nat) : Option Decimal :=
  match findScaleAux d 29 0 with
  | some e =>
    let m := n * ((10 ^ e / d : Nat) : Int)
    if m.natAbs < 2 ^ 96 then some ⟨m, e⟩ else none
  | none => none

/-- Model of `Decimal::from_f32` restricted to its exact domain: the smallest
scale ≤ 28 whose power of ten clears the denominator.  `Decimal::from_f32`
returns exactly this decimal for every short decimal value (in particular for
0, 1, 2, 3 and 0.5, the only scalars the claims produce); values outside this
domain (where the real conversion would approximate) are modelled as `none`,
which only ever makes `from_weights` fail — never lets it succeed with a value
the source would not produce. -/
def ratToDec (q : ℚ) : Option Decimal := ratToDecCore q.num q.den

/-- Model of `Price::scale(&mut self, scalar: f32)`, i.e.
`self.0 *= Decimal::from_f32(scalar).unwrap()`: `none` is the `unwrap`
panic or the multiplication overflow panic.  (Named `scaleBy` because the
source's method name collides with the `scale` field of `Decimal`.) -/
def Price.scaleBy (p : Price) (scalar : ℚ) : Option Price :=
  (ratToDec scalar).bind fun s => Decimal.checked_mul p s

/-- The four aggregation weights (`struct Weights`); `f32` fields modelled as
exact rationals (see the header note). -/
structure Weights where
  binance_us : ℚ
  binance_int : ℚ
  bilaxy : ℚ
  coingecko : ℚ

/-- Outcome of each source's `retry!`-wrapped fetch, as consumed by
`fetch_or_null`: `some p` when some retry attempt returned a price, `none`
when every attempt failed. -/
structure Fetches where
  binance_us : Option Price
  binance_int : Option Price
  bilaxy : Option Price
  coingecko : Option Price

/-- Model of the `fetch_or_null!` macro: weight 0 skips the fetch and yields
`(0, null)`; a fetch that fails after all retries is demoted to `(0, null)`
with a warning; a successful fetch yields `(weight, price)`. -/
def fetch_or_null (w : ℚ) (fetch : Option Price) : ℚ × Price :=
  if w ≠ 0 then
    match fetch with
    | some price => (w, price)
    | none => (0, Price.null)
  else (0, Price.null)

/-- The `values` array of `from_weights`, in source order. -/
def weightedValues (w : Weights) (f : Fetches) : List (ℚ × Price) :=
  [fetch_or_null w.binance_us f.binance_us,
   fetch_or_null w.binance_int f.binance_int,
   fetch_or_null w.bilaxy f.bilaxy,
   fetch_or_null w.coingecko f.coingecko]

/-- The `sum_weights` accumulator of the `from_weights` loop. -/
def sumWeights (vals : List (ℚ × Price)) : ℚ := vals.foldl (fun acc v => acc + v.1) 0

/-- The `price` accumulator of the `from_weights` loop: each entry is scaled by
its weight and added; `none` is any panic inside the loop. -/
def accumPrice : List (ℚ × Price) → Option Price → Option Price
  | [], acc => acc
  | v :: rest, acc =>
    accumPrice rest
      (acc.bind fun price => (Price.scaleBy v.2 v.1).bind fun sp => Decimal.add price sp)

/-- Model of `Price::from_weights`: build the `values` array, run the
scale-and-sum loop, fail (`panic!`) with `noViableSources` when the summed
weight is zero, otherwise normalize by `1.0 / sum_weights`. -/
def Price.from_weights (w : Weights) (f : Fetches) : Except OracleError Price :=
  let vals := weightedValues w f
  match accumPrice vals (some Price.null) with
  | none => .error .overflowPanic
  | some price =>
    if sumWeights vals = 0 then .error .noViableSources
    else
      match Price.scaleBy price (1 / sumWeights vals) with
      | some result => .ok result
      | none => .error .overflowPanic

/-- Model of the Rust `as` cast from `f32` to `u16` applied to the sampled
delay (`distribution.sample(&mut rng) as u16`): truncate toward zero and
saturate into `[0, 65535]`; the finite `f32` sample is given by its exact
rational value. -/
def castF32toU16 (q : ℚ) : Nat :=
  if q < 0 then 0 else min 65535 (⌊q⌋).toNat

/-- Model of the delay computation of `AutomatedReportByWeightedAverage::run`:
`cmp::min(self.min, sample as u16) as u64`, in whole minutes. -/
def delay_mins (cfgMin : Nat) (sample : ℚ) : Nat :=
  min cfgMin (castF32toU16 sample)

/-- Model of `time::Duration::from_secs(delay_mins * 60)`: the slept duration
in seconds. -/
def sleep_secs (cfgMin : Nat) (sample : ℚ) : Nat :=
  delay_mins cfgMin sample * 60

deriving instance DecidableEq for Except

/-- On a nonnegative coefficient, the reduction loop either yields a pair whose
truncated integer value equals the truncated integer value of the input, or
fails with a value of at least 2^96. -/
theorem mulReduce_ofNat (e : Nat) : ∀ n : Nat, e ≤ 28 →
    (∃ dn ds : Nat, mulReduce (n : Int) e = some ⟨(dn : Int), ds⟩ ∧
       dn / 10 ^ ds = n / 10 ^ e) ∨
    (mulReduce (n : Int) e = none ∧ 2 ^ 96 ≤ n / 10 ^ e) := by
  induction e with
  | zero =>
    intro n _
    by_cases h : n < 2 ^ 96
    · refine Or.inl ⟨n, 0, ?_, rfl⟩
      simp only [mulReduce]
      rw [if_pos (by simpa using h)]
    · refine Or.inr ⟨?_, by simpa using Nat.le_of_not_lt h⟩
      simp only [mulReduce]
      rw [if_neg (by simpa using h)]
  | succ e ih =>
    intro n he
    by_cases h : n < 2 ^ 96
    · refine Or.inl ⟨n, e + 1, ?_, rfl⟩
      simp only [mulReduce]
      rw [if_pos ⟨by simpa using h, he⟩]
    · have hred : mulReduce (n : Int) (e + 1) = mulReduce ((n / 10 : Nat) : Int) e := by
        simp only [mulReduce]
        rw [if_neg (by simp only [Int.natAbs_ofNat]; exact fun hc => h hc.1)]
        congr 1
      have hq : n / 10 ^ (e + 1) = (n / 10) / 10 ^ e := by
        rw [Nat.div_div_eq_div_mul, ← pow_succ']
      rw [hred]
      rcases ih (n / 10) (by omega) with ⟨dn, ds, hsome, hval⟩ | ⟨hnone, hge⟩
      · exact Or.inl ⟨dn, ds, hsome, by rw [hval, ← hq]⟩
      · exact Or.inr ⟨hnone, by rw [hq]; exact hge⟩

/-- On a negative coefficient the reduction loop either fails or yields a
negative coefficient: the divisions never cross zero because they only run
while the magnitude still exceeds 96 bits. -/
theorem mulReduce_neg (e : Nat) : ∀ m : Int, e ≤ 28 → m < 0 →
    mulReduce m e = none ∨ ∃ d, mulReduce m e = some d ∧ d.mantissa < 0 := by
  induction e with
  | zero =>
    intro m _ hm
    by_cases h : m.natAbs < 2 ^ 96
    · refine Or.inr ⟨⟨m, 0⟩, ?_, hm⟩
      simp only [mulReduce]
      rw [if_pos h]
    · refine Or.inl ?_
      simp only [mulReduce]
      rw [if_neg h]
  | succ e ih =>
    intro m he hm
    by_cases h : m.natAbs < 2 ^ 96
    · refine Or.inr ⟨⟨m, e + 1⟩, ?_, hm⟩
      simp only [mulReduce]
      rw [if_pos ⟨h, he⟩]
    · have hred : mulReduce m (e + 1) = mulReduce (m.tdiv 10) e := by
        simp only [mulReduce]
        rw [if_neg (fun hc => h hc.1)]
      have habs : ((m.natAbs : Int)) = -m := Int.ofNat_natAbs_of_nonpos (le_of_lt hm)
      have hpos : 0 < m.natAbs / 10 := Nat.div_pos (by omega) (by norm_num)
      have hneg : m.tdiv 10 < 0 := by
        have h1 : ((m.natAbs : Int)).tdiv 10 = ((m.natAbs / 10 : Nat) : Int) :=
          (Int.ofNat_tdiv m.natAbs 10).symm
        have h2 : (-m).tdiv 10 = ((m.natAbs / 10 : Nat) : Int) := by rw [← habs]; exact h1
        have h3 : (-m).tdiv 10 = -(m.tdiv 10) := Int.neg_tdiv m 10
        have h4 : -(m.tdiv 10) = ((m.natAbs / 10 : Nat) : Int) := by rw [← h3]; exact h2
        omega
      rw [hred]
      exact ih _ (by omega) hneg

/-- Evaluation of `Price::to_millis` on a nonnegative price within the
rust_decimal scale invariant: the result is the value scaled by 10^8 and
truncated toward zero, and the conversion panics exactly when that integer
does not fit in 64 bits. -/
theorem to_millis_spec_nonneg (p : Price) (h0 : 0 ≤ p.mantissa) (h28 : p.scale ≤ 28) :
    Price.to_millis p =
      if p.mantissa.toNat * 10 ^ 8 / 10 ^ p.scale < 2 ^ 64
      then .ok (p.mantissa.toNat * 10 ^ 8 / 10 ^ p.scale)
      else .error .invalidPrice := by
  have hm : p.mantissa * scalarDec.mantissa = ((p.mantissa.toNat * 10 ^ 8 : Nat) : Int) := by
    push_cast
    rw [Int.toNat_of_nonneg h0]
    norm_num [scalarDec, USD_TO_PRICE_SCALAR]
  have hsc : p.scale + scalarDec.scale = p.scale := rfl
  unfold Price.to_millis Decimal.checked_mul
  rw [hm, hsc]
  rcases mulReduce_ofNat p.scale (p.mantissa.toNat * 10 ^ 8) h28 with
    ⟨dn, ds, hsome, hval⟩ | ⟨hnone, hge⟩
  · have hu : Decimal.to_u64 ⟨(dn : Int), ds⟩ =
        if dn / 10 ^ ds < 2 ^ 64 then some (dn / 10 ^ ds) else none := by
      simp only [Decimal.to_u64, Int.toNat_natCast]
      rw [if_neg (by omega)]
    rw [hsome]
    simp only [hu, hval]
    by_cases hfit : p.mantissa.toNat * 10 ^ 8 / 10 ^ p.scale < 2 ^ 64
    · rw [if_pos hfit, if_pos hfit]
    · rw [if_neg hfit, if_neg hfit]
  · rw [hnone, if_neg (by omega)]

/-- Behaviour of the retry driver on an operation that fails on every attempt:
the delays are consumed one by one, the result is the failure of the last
attempt, and the operation runs once per delay plus once up front. -/
theorem retryGo_always_fail (op : Nat → Except E A) (f : Nat → E)
    (hop : ∀ n, op n = .error (f n)) :
    ∀ (delays : List Nat) (k : Nat),
      retryGo op delays k = .error (f (k + delays.length)) ∧
      retryTries op delays k = delays.length + 1 := by
  intro delays
  induction delays with
  | nil =>
    intro k
    constructor
    · simp only [retryGo, hop, List.length_nil, Nat.add_zero]
    · simp only [retryTries, List.length_nil]
  | cons d rest ih =>
    intro k
    constructor
    · simp only [retryGo, hop, List.length_cons]
      rw [(ih (k + 1)).1, show k + 1 + rest.length = k + (rest.length + 1) by omega]
    · simp only [retryTries, hop, List.length_cons]
      rw [(ih (k + 1)).2]
      omega

/-- Behaviour of the retry driver when some attempt succeeds: the first
success is returned. -/
theorem retryGo_first_success (op : Nat → Except E A) (a : A) :
    ∀ (delays : List Nat) (k j : Nat), j ≤ delays.length →
      (∀ i, i < j → ∃ er, op (k + i) = .error er) → op (k + j) = .ok a →
      retryGo op delays k = .ok a := by
  intro delays
  induction delays with
  | nil =>
    intro k j hj hfail hok
    have hj0 : j = 0 := Nat.le_zero.mp hj
    subst hj0
    simp only [retryGo]
    rw [show k + 0 = k from rfl] at hok
    exact hok
  | cons d rest ih =>
    intro k j hj hfail hok
    cases j with
    | zero =>
      rw [show k + 0 = k from rfl] at hok
      simp only [retryGo, hok]
    | succ j =>
      obtain ⟨er, her⟩ := hfail 0 (Nat.succ_pos j)
      rw [show k + 0 = k from rfl] at her
      simp only [retryGo, her]
      refine ih (k + 1) j (by simpa using hj) ?_ ?_
      · intro i hi
        obtain ⟨e2, he2⟩ := hfail (i + 1) (by omega)
        exact ⟨e2, by rw [show k + 1 + i = k + (i + 1) by omega]; exact he2⟩
      · rw [show k + 1 + j = k + (j + 1) by omega]
        exact hok

/-- Evaluation of `Price::to_millis` on a negative price: always the panic. -/
theorem to_millis_spec_neg (p : Price) (h0 : p.mantissa < 0) (h28 : p.scale ≤ 28) :
    Price.to_millis p = .error .invalidPrice := by
  have hm : p.mantissa * scalarDec.mantissa < 0 := by
    have : (0 : Int) < scalarDec.mantissa := by norm_num [scalarDec, USD_TO_PRICE_SCALAR]
    exact mul_neg_of_neg_of_pos h0 this
  have hsc : p.scale + scalarDec.scale = p.scale := rfl
  unfold Price.to_millis Decimal.checked_mul
  rw [hsc]
  rcases mulReduce_neg p.scale (p.mantissa * scalarDec.mantissa) h28 hm with
    hnone | ⟨d, hsome, hd⟩
  · rw [hnone]
  · have hu : Decimal.to_u64 d = none := by
      simp only [Decimal.to_u64]
      rw [if_pos hd]
    rw [hsome]
    simp only [hu]

/-- Truncated natural division, read in ℚ, undershoots the true quotient by
less than one. -/
theorem natDiv_rat_lt (a b : Nat) (hb : 0 < b) :
    (a : ℚ) / (b : ℚ) < ((a / b : Nat) : ℚ) + 1 := by
  rw [div_lt_iff₀ (by positivity)]
  have h : a < (a / b + 1) * b := (Nat.div_lt_iff_lt_mul hb).mp (Nat.lt_succ_self _)
  calc (a : ℚ) < (((a / b + 1) * b : ℕ) : ℚ) := by exact_mod_cast h
  _ = (((a / b : ℕ) : ℚ) + 1) * (b : ℚ) := by push_cast; ring

/-- Rational reading of a nonnegative price scaled by 10^8, as a quotient of
the naturals that the code manipulates. -/
theorem toRat_mul_scalar (p : Price) (h0 : 0 ≤ p.mantissa) :
    Decimal.toRat p * 10 ^ 8 =
      ((p.mantissa.toNat * 10 ^ 8 : Nat) : ℚ) / ((10 ^ p.scale : Nat) : ℚ) := by
  have hq : ((p.mantissa.toNat : ℕ) : ℚ) = (p.mantissa : ℚ) := by
    exact_mod_cast congrArg (Int.cast : ℤ → ℚ) (Int.toNat_of_nonneg h0)
  unfold Decimal.toRat
  push_cast
  rw [hq]
  ring

/-- C1: the claim states that `to_millis` rounds to 8 fractional digits
half-up before scaling.  The code does not round: `checked_mul` keeps the
scale and `to_u64` truncates.  At the price 5·10⁻⁹ (nine fractional digits)
the claim demands round-half-up to 10⁻⁸, i.e. chain units 1, but `to_millis`
returns 0. -/
theorem C1_counterexample :
    Price.to_millis ⟨5, 9⟩ = .ok 0 ∧
    Decimal.round_dp_half_up ⟨5, 9⟩ 8 = ⟨1, 8⟩ ∧
    Price.to_millis (Decimal.round_dp_half_up ⟨5, 9⟩ 8) = .ok 1 ∧
    Price.to_millis ⟨5, 9⟩ ≠ .ok 1 :=
  ⟨by decide, by decide, by decide, by decide⟩

/-- C1 (amended): for every nonnegative `Decimal` within the rust_decimal
scale invariant whose scaled value fits `u64`, `to_millis` returns the value
scaled by 10^8 and truncated toward zero (the greatest integer below the
scaled value) — not rounded half-up. -/
theorem C1_to_millis_truncates (p : Price) (h0 : 0 ≤ p.mantissa) (h28 : p.scale ≤ 28)
    (hfit : p.mantissa.toNat * 10 ^ 8 / 10 ^ p.scale < 2 ^ 64) :
    Price.to_millis p = .ok (p.mantissa.toNat * 10 ^ 8 / 10 ^ p.scale) ∧
    ((p.mantissa.toNat * 10 ^ 8 / 10 ^ p.scale : Nat) : ℚ) ≤ Decimal.toRat p * 10 ^ 8 ∧
    Decimal.toRat p * 10 ^ 8 < ((p.mantissa.toNat * 10 ^ 8 / 10 ^ p.scale : Nat) : ℚ) + 1 := by
  have hb : 0 < 10 ^ p.scale := pow_pos (by norm_num) _
  refine ⟨?_, ?_, ?_⟩
  · rw [to_millis_spec_nonneg p h0 h28, if_pos hfit]
  · rw [toRat_mul_scalar p h0]
    exact Nat.cast_div_le
  · rw [toRat_mul_scalar p h0]
    exact natDiv_rat_lt _ _ hb

/-- C1 witness: at 12.345 the amended theorem gives chain units 1234500000. -/
theorem C1_to_millis_truncates_witness :
    Price.to_millis ⟨12345, 3⟩ = .ok ((12345 : Int).toNat * 10 ^ 8 / 10 ^ 3) :=
  (C1_to_millis_truncates ⟨12345, 3⟩ (by decide) (by decide) (by decide)).1

/-- C9: a price whose chain-unit scaling does not fit in 64 bits, or whose
value is negative, makes `to_millis` fail with the fatal construction panic
(no wrapping, no value returned). -/
theorem C9_overflow_or_negative_panics (p : Price) (h28 : p.scale ≤ 28) :
    (p.mantissa < 0 → Price.to_millis p = .error .invalidPrice) ∧
    (2 ^ 64 ≤ p.mantissa.toNat * 10 ^ 8 / 10 ^ p.scale →
      Price.to_millis p = .error .invalidPrice) := by
  constructor
  · intro hneg
    exact to_millis_spec_neg p hneg h28
  · intro hbig
    rcases lt_or_le p.mantissa 0 with hneg | hpos
    · exact to_millis_spec_neg p hneg h28
    · rw [to_millis_spec_nonneg p hpos h28, if_neg (by omega)]

/-- C9 witness: −0.5 and the 96-bit-overflowing integer 2^70 both panic. -/
theorem C9_overflow_or_negative_panics_witness :
    Price.to_millis ⟨-5, 1⟩ = .error .invalidPrice ∧
    Price.to_millis ⟨2 ^ 70, 0⟩ = .error .invalidPrice :=
  ⟨(C9_overflow_or_negative_panics ⟨-5, 1⟩ (by norm_num)).1 (by norm_num),
   (C9_overflow_or_negative_panics ⟨2 ^ 70, 0⟩ (by norm_num)).2 (by decide)⟩

/-- C7: `from_millis` succeeds on every `u64` and reconstructs the scale-8
decimal; and for every nonnegative price with at most 8 fractional digits
(its value times 10^8 is an integer) whose scaling fits `u64`, the round trip
`from_millis (to_millis p)` returns a decimal with the same value as `p`
(rust_decimal `==` compares values across scales). -/
theorem C7_round_trip (p : Price) (h0 : 0 ≤ p.mantissa) (h28 : p.scale ≤ 28)
    (hdvd : 10 ^ p.scale ∣ p.mantissa.toNat * 10 ^ 8)
    (hfit : p.mantissa.toNat * 10 ^ 8 / 10 ^ p.scale < 2 ^ 64) :
    (∀ m : Nat, m < 2 ^ 64 → Price.from_millis m = .ok ⟨(m : Int), 8⟩ ∧
      Price.to_millis ⟨(m : Int), 8⟩ = .ok m) ∧
    ∃ n, Price.to_millis p = .ok n ∧ Price.from_millis n = .ok ⟨(n : Int), 8⟩ ∧
      Decimal.toRat ⟨(n : Int), 8⟩ = Decimal.toRat p := by
  have hb : (0 : ℚ) < ((10 ^ p.scale : Nat) : ℚ) := by positivity
  constructor
  · intro m hm
    constructor
    · rw [Price.from_millis, if_pos hm]
    · have hnn : (0 : Int) ≤ ((m : Nat) : Int) := Int.natCast_nonneg m
      rw [to_millis_spec_nonneg ⟨(m : Int), 8⟩ hnn (by norm_num)]
      simp only [Int.toNat_natCast]
      rw [Nat.mul_div_cancel _ (by positivity)]
      rw [if_pos hm]
  · refine ⟨p.mantissa.toNat * 10 ^ 8 / 10 ^ p.scale, ?_, ?_, ?_⟩
    · rw [to_millis_spec_nonneg p h0 h28, if_pos hfit]
    · rw [Price.from_millis, if_pos hfit]
    · unfold Decimal.toRat
      have hq : ((p.mantissa.toNat : ℕ) : ℚ) = (p.mantissa : ℚ) := by
        exact_mod_cast congrArg (Int.cast : ℤ → ℚ) (Int.toNat_of_nonneg h0)
      have hcast : (((p.mantissa.toNat * 10 ^ 8 / 10 ^ p.scale : ℕ) : ℤ) : ℚ)
          = ((p.mantissa.toNat * 10 ^ 8 : ℕ) : ℚ) / ((10 ^ p.scale : ℕ) : ℚ) := by
        rw [Int.cast_natCast]
        exact Nat.cast_div hdvd (ne_of_gt hb)
      rw [hcast]
      rw [show ((p.mantissa.toNat * 10 ^ 8 : ℕ) : ℚ) = (p.mantissa : ℚ) * 10 ^ 8 by
        push_cast; rw [hq]; norm_num]
      rw [show ((10 ^ p.scale : ℕ) : ℚ) = (10 : ℚ) ^ p.scale by push_cast; ring]
      rw [div_div, mul_comm ((10 : ℚ) ^ p.scale) ((10 : ℚ) ^ 8), ← div_div]
      rw [mul_div_assoc, div_self (by norm_num), mul_one]

/-- C7 witness: the round trip at 12.345. -/
theorem C7_round_trip_witness :
    ∃ n, Price.to_millis ⟨12345, 3⟩ = .ok n ∧ Price.from_millis n = .ok ⟨(n : Int), 8⟩ ∧
      Decimal.toRat ⟨(n : Int), 8⟩ = Decimal.toRat ⟨12345, 3⟩ :=
  (C7_round_trip ⟨12345, 3⟩ (by decide) (by decide) (by decide) (by decide)).2

/-- C2 counterexample: under the policy `Fixed::from_millis(1000).take(10)`,
an always-failing operation is invoked 11 times (one initial attempt plus one
retry per delay), not 10 as the claim states. -/
theorem C2_counterexample :
    run_with_retry_tries (fun _ => (.error 0 : Except Nat Unit)) = 11 ∧
    run_with_retry_tries (fun _ => (.error 0 : Except Nat Unit)) ≠ 10 :=
  ⟨by decide, by decide⟩

/-- C2 (amended): with the `retry!` policy (ten one-second delays) an
always-failing operation is invoked exactly 11 times — one initial attempt
plus one retry per delay — and the failure of the last attempt (index 10) is
returned; an operation whose first success comes at attempt `j ≤ 10` yields
that first success. -/
theorem C2_retry_attempts {E A : Type} (op : Nat → Except E A) :
    (∀ f : Nat → E, (∀ n, op n = .error (f n)) →
      run_with_retry op = .error (f 10) ∧ run_with_retry_tries op = 11) ∧
    (∀ (j : Nat) (a : A), j ≤ 10 → (∀ i, i < j → ∃ er, op i = .error er) →
      op j = .ok a → run_with_retry op = .ok a) := by
  constructor
  · intro f hop
    have h := retryGo_always_fail op f hop retryPolicy 0
    constructor
    · rw [run_with_retry, h.1]
      norm_num [retryPolicy]
    · rw [run_with_retry_tries, h.2]
      norm_num [retryPolicy]
  · intro j a hj hfail hok
    rw [run_with_retry]
    exact retryGo_first_success op a retryPolicy 0 j (by simpa [retryPolicy] using hj)
      (by simpa using hfail) (by simpa using hok)

/-- C2 witness: a concrete always-failing operation runs 11 times and returns
its failure; a concrete operation succeeding on attempt 2 returns that
success. -/
theorem C2_retry_attempts_witness :
    (run_with_retry (fun _ => (.error 7 : Except Nat Unit)) = .error 7 ∧
     run_with_retry_tries (fun _ => (.error 7 : Except Nat Unit)) = 11) ∧
    run_with_retry (fun n => if n = 2 then (.ok n : Except Nat Nat) else .error n) = .ok 2 :=
  ⟨(C2_retry_attempts _).1 (fun _ => 7) (fun _ => rfl),
   (C2_retry_attempts _).2 2 2 (by norm_num)
     (fun i hi => ⟨i, by simp only [if_neg (show ¬ i = 2 by omega)]⟩) (by decide)⟩

/-- C5: the effective sleep is the minimum of the configured floor and the
sampled delay, in whole minutes: floor 8 with sample 20 sleeps 8, with
sample 3 sleeps 3; in general, for any in-range integer sample, the computed
minutes equal `min floor sample`. -/
theorem C5_delay_clamp :
    delay_mins 8 20 = 8 ∧ delay_mins 8 3 = 3 ∧
    ∀ cfgMin s : Nat, s ≤ 65535 → delay_mins cfgMin (s : ℚ) = min cfgMin s := by
  refine ⟨by decide, by decide, ?_⟩
  intro cfgMin s hs
  rw [delay_mins, castF32toU16, if_neg (not_lt.mpr (by positivity)),
    Int.floor_natCast, Int.toNat_natCast, min_eq_right hs]

/-- C5 witness: the general clamp at floor 8 and sample 20. -/
theorem C5_delay_clamp_witness : delay_mins 8 ((20 : ℕ) : ℚ) = min 8 20 :=
  C5_delay_clamp.2.2 8 20 (by norm_num)

/-- C10: for every finite sampled value (given by its exact rational value)
and a floor in `u16` range, the computed delay is a whole number of minutes
between 0 and the floor; negative samples cast to 0 and samples at or above
65536 saturate to 65535; the sleep is exactly 60 seconds per minute and
never overflows `u64`. -/
theorem C10_delay_sample_total (cfgMin : Nat) (q : ℚ) (hcfg : cfgMin ≤ 65535) :
    delay_mins cfgMin q ≤ cfgMin ∧
    castF32toU16 q ≤ 65535 ∧
    (q < 0 → castF32toU16 q = 0) ∧
    (65536 ≤ q → castF32toU16 q = 65535) ∧
    sleep_secs cfgMin q = 60 * delay_mins cfgMin q ∧
    sleep_secs cfgMin q < 2 ^ 64 := by
  have hcast : castF32toU16 q ≤ 65535 := by
    rw [castF32toU16]
    split
    · exact Nat.zero_le _
    · exact min_le_left _ _
  refine ⟨min_le_left _ _, hcast, ?_, ?_, ?_, ?_⟩
  · intro hq
    rw [castF32toU16, if_pos hq]
  · intro hq
    have hq0 : ¬ q < 0 := not_lt.mpr (le_trans (by norm_num) hq)
    have hf : (65536 : ℤ) ≤ ⌊q⌋ := Int.le_floor.mpr (by exact_mod_cast hq)
    rw [castF32toU16, if_neg hq0, min_eq_left (by omega)]
  · rw [sleep_secs, Nat.mul_comm]
  · rw [sleep_secs]
    have h1 : delay_mins cfgMin q ≤ 65535 := le_trans (min_le_left _ _) hcfg
    calc delay_mins cfgMin q * 60 ≤ 65535 * 60 := Nat.mul_le_mul_right _ h1
    _ < 2 ^ 64 := by norm_num

/-- C10 witness: a negative sample and an out-of-range sample at floor 8. -/
theorem C10_delay_sample_total_witness :
    castF32toU16 (-3 : ℚ) = 0 ∧ castF32toU16 (70000 : ℚ) = 65535 ∧
    sleep_secs 8 (-3 : ℚ) < 2 ^ 64 :=
  ⟨(C10_delay_sample_total 8 (-3) (by norm_num)).2.2.1 (by norm_num),
   (C10_delay_sample_total 8 70000 (by norm_num)).2.2.2.1 (by norm_num),
   (C10_delay_sample_total 8 (-3) (by norm_num)).2.2.2.2.2⟩

/-- C3: a source with positive requested weight whose fetch fails after all
retries contributes weight 0 and price zero; concretely, with source A at
weight 2 succeeding at price 10 and source B at weight 3 failing, aggregation
returns the decimal value 10 with effective total weight 2. -/
theorem C3_failed_source_excluded :
    (∀ w : ℚ, w ≠ 0 → fetch_or_null w none = (0, Price.null)) ∧
    Price.from_weights ⟨2, 3, 0, 0⟩ ⟨some ⟨10, 0⟩, none, none, none⟩ = .ok ⟨100, 1⟩ ∧
    Decimal.toRat ⟨100, 1⟩ = 10 ∧
    sumWeights (weightedValues ⟨2, 3, 0, 0⟩ ⟨some ⟨10, 0⟩, none, none, none⟩) = 2 := by
  have hvals : weightedValues ⟨2, 3, 0, 0⟩ ⟨some ⟨10, 0⟩, none, none, none⟩ =
      [(2, ⟨10, 0⟩), (0, Price.null), (0, Price.null), (0, Price.null)] := by
    norm_num [weightedValues, fetch_or_null]
  have hsum : sumWeights
      [((2 : ℚ), (⟨10, 0⟩ : Price)), (0, Price.null), (0, Price.null), (0, Price.null)] = 2 := by
    norm_num [sumWeights, List.foldl]
  refine ⟨fun w hw => by rw [fetch_or_null, if_pos hw], ?_, ?_, ?_⟩
  · have h2 : ratToDec (2 : ℚ) = some ⟨2, 0⟩ := by
      rw [ratToDec, show ((2 : ℚ)).num = 2 by norm_num, show ((2 : ℚ)).den = 1 by norm_num]
      decide
    have h0 : ratToDec (0 : ℚ) = some ⟨0, 0⟩ := by
      rw [ratToDec, show ((0 : ℚ)).num = 0 by norm_num, show ((0 : ℚ)).den = 1 by norm_num]
      decide
    have h12 : ratToDec (1 / 2 : ℚ) = some ⟨5, 1⟩ := by
      rw [ratToDec, show ((1 : ℚ) / 2).num = 1 by norm_num, show ((1 : ℚ) / 2).den = 2 by norm_num]
      decide
    have haccum : accumPrice
        [((2 : ℚ), (⟨10, 0⟩ : Price)), (0, Price.null), (0, Price.null), (0, Price.null)]
        (some Price.null) = some ⟨20, 0⟩ := by
      simp only [accumPrice, Price.scaleBy, h2, h0]
      decide
    rw [Price.from_weights, hvals, hsum, haccum]
    simp only [Price.scaleBy, h12]
    rw [if_neg (show ¬ ((2 : ℚ) = 0) by norm_num)]
    decide
  · norm_num [Decimal.toRat]
  · rw [hvals]
    exact hsum

/-- C3 witness: a failing source requested at weight 3 contributes nothing. -/
theorem C3_failed_source_excluded_witness : fetch_or_null 3 none = (0, Price.null) :=
  C3_failed_source_excluded.1 3 (by norm_num)

/-- C4: when the contributed weights after suppression sum to zero,
`from_weights` never returns a price; with all four weights zero it fails
with exactly the `NoViableSources` panic. -/
theorem C4_no_viable_sources :
    (∀ (w : Weights) (f : Fetches) (p : Price),
      sumWeights (weightedValues w f) = 0 → Price.from_weights w f ≠ .ok p) ∧
    Price.from_weights ⟨0, 0, 0, 0⟩ ⟨none, none, none, none⟩ = .error .noViableSources := by
  constructor
  · intro w f p hz
    rw [Price.from_weights]
    cases haccum : accumPrice (weightedValues w f) (some Price.null) with
    | none => simp
    | some price => simp [hz]
  · have hvals : weightedValues ⟨0, 0, 0, 0⟩ ⟨none, none, none, none⟩ =
        [(0, Price.null), (0, Price.null), (0, Price.null), (0, Price.null)] := by
      norm_num [weightedValues, fetch_or_null]
    have hsum : sumWeights
        [((0 : ℚ), Price.null), (0, Price.null), (0, Price.null), (0, Price.null)] = 0 := by
      norm_num [sumWeights, List.foldl]
    have h0 : ratToDec (0 : ℚ) = some ⟨0, 0⟩ := by
      rw [ratToDec, show ((0 : ℚ)).num = 0 by norm_num, show ((0 : ℚ)).den = 1 by norm_num]
      decide
    have haccum : accumPrice
        [((0 : ℚ), Price.null), (0, Price.null), (0, Price.null), (0, Price.null)]
        (some Price.null) = some ⟨0, 0⟩ := by
      simp only [accumPrice, Price.scaleBy, h0]
      decide
    rw [Price.from_weights, hvals, hsum, haccum]
    simp

/-- C4 witness: the all-zero configuration yields no price. -/
theorem C4_no_viable_sources_witness :
    Price.from_weights ⟨0, 0, 0, 0⟩ ⟨none, none, none, none⟩ ≠ .ok ⟨0, 0⟩ :=
  C4_no_viable_sources.1 ⟨0, 0, 0, 0⟩ ⟨none, none, none, none⟩ ⟨0, 0⟩ (by
    norm_num [weightedValues, fetch_or_null, sumWeights, List.foldl])

/-- C6: two sources of equal weight 1 at prices 10 and 20 average to exactly
the decimal value 15, through decimal scalar multiplication and addition. -/
theorem C6_equal_weight_average :
    Price.from_weights ⟨1, 1, 0, 0⟩ ⟨some ⟨10, 0⟩, some ⟨20, 0⟩, none, none⟩ = .ok ⟨150, 1⟩ ∧
    Decimal.toRat ⟨150, 1⟩ = 15 := by
  have hvals : weightedValues ⟨1, 1, 0, 0⟩ ⟨some ⟨10, 0⟩, some ⟨20, 0⟩, none, none⟩ =
      [(1, ⟨10, 0⟩), (1, ⟨20, 0⟩), (0, Price.null), (0, Price.null)] := by
    norm_num [weightedValues, fetch_or_null]
  have hsum : sumWeights
      [((1 : ℚ), (⟨10, 0⟩ : Price)), (1, ⟨20, 0⟩), (0, Price.null), (0, Price.null)] = 2 := by
    norm_num [sumWeights, List.foldl]
  have h1 : ratToDec (1 : ℚ) = some ⟨1, 0⟩ := by
    rw [ratToDec, show ((1 : ℚ)).num = 1 by norm_num, show ((1 : ℚ)).den = 1 by norm_num]
    decide
  have h0 : ratToDec (0 : ℚ) = some ⟨0, 0⟩ := by
    rw [ratToDec, show ((0 : ℚ)).num = 0 by norm_num, show ((0 : ℚ)).den = 1 by norm_num]
    decide
  have h12 : ratToDec (1 / 2 : ℚ) = some ⟨5, 1⟩ := by
    rw [ratToDec, show ((1 : ℚ) / 2).num = 1 by norm_num, show ((1 : ℚ) / 2).den = 2 by norm_num]
    decide
  have haccum : accumPrice
      [((1 : ℚ), (⟨10, 0⟩ : Price)), (1, ⟨20, 0⟩), (0, Price.null), (0, Price.null)]
      (some Price.null) = some ⟨30, 0⟩ := by
    simp only [accumPrice, Price.scaleBy, h1, h0]
    decide
  constructor
  · rw [Price.from_weights, hvals, hsum, haccum]
    simp only [Price.scaleBy, h12]
    rw [if_neg (show ¬ ((2 : ℚ) = 0) by norm_num)]
    decide
  · norm_num [Decimal.toRat]

/-- C8: a valid decimal literal that is not a recognized source name parses
and is rounded to 8 fractional digits half-up; `to_millis` then scales the
rounded value by 10^8 exactly; concretely "12.345678905" rounds to
12.34567891 and yields chain units 1234567891, and a non-numeric string
fails with the parse error. -/
theorem C8_parse_rounds_and_scales :
    (∀ (s : String) (d : Decimal), Decimal.from_str s = some d → s ∉ sourceNames →
      Price.from_str fetchFail s = .ok (Decimal.round_dp_half_up d 8)) ∧
    (∀ d : Decimal, 0 ≤ d.mantissa → d.scale ≤ 8 →
      d.mantissa.toNat * 10 ^ (8 - d.scale) < 2 ^ 64 →
      Price.to_millis d = .ok (d.mantissa.toNat * 10 ^ (8 - d.scale)) ∧
      ((d.mantissa.toNat * 10 ^ (8 - d.scale) : ℕ) : ℚ) = Decimal.toRat d * 10 ^ 8) ∧
    Price.from_str fetchFail "12.345678905" = .ok ⟨1234567891, 8⟩ ∧
    Price.to_millis ⟨1234567891, 8⟩ = .ok 1234567891 ∧
    Price.from_str fetchFail "abc" = .error .invalidFormat := by
  refine ⟨?_, ?_, by decide, by decide, by decide⟩
  · intro s d hparse hns
    have h1 : ¬ s = "coingecko" := fun h => hns (by rw [h]; simp [sourceNames])
    have h2 : ¬ s = "bilaxy" := fun h => hns (by rw [h]; simp [sourceNames])
    have h3 : ¬ s = "binance" := fun h => hns (by rw [h]; simp [sourceNames])
    have h4 : ¬ s = "binance-us" := fun h => hns (by rw [h]; simp [sourceNames])
    have h5 : ¬ s = "binance-int" := fun h => hns (by rw [h]; simp [sourceNames])
    rw [Price.from_str, if_neg h1, if_neg h2, if_neg h3, if_neg h4, if_neg h5]
    simp [hparse, Option.orElse]
  · intro d h0 h8 hfit
    have hdvd : 10 ^ d.scale ∣ d.mantissa.toNat * 10 ^ 8 :=
      Dvd.dvd.mul_left (pow_dvd_pow 10 h8) _
    have heq : d.mantissa.toNat * 10 ^ 8 / 10 ^ d.scale
        = d.mantissa.toNat * 10 ^ (8 - d.scale) := by
      rw [show (10 : ℕ) ^ 8 = 10 ^ d.scale * 10 ^ (8 - d.scale) by
          rw [← pow_add]; congr 1; omega]
      rw [show d.mantissa.toNat * (10 ^ d.scale * 10 ^ (8 - d.scale))
          = 10 ^ d.scale * (d.mantissa.toNat * 10 ^ (8 - d.scale)) by ring]
      exact Nat.mul_div_cancel_left _ (pow_pos (by norm_num) _)
    constructor
    · rw [to_millis_spec_nonneg d h0 (le_trans h8 (by norm_num)), heq, if_pos hfit]
    · rw [toRat_mul_scalar d h0, ← heq]
      exact Nat.cast_div hdvd (by positivity)

/-- C8 witness: "1.5" parses on the literal path, and a scale-1 decimal is
scaled exactly. -/
theorem C8_parse_rounds_and_scales_witness :
    Price.from_str fetchFail "1.5" = .ok (Decimal.round_dp_half_up ⟨15, 1⟩ 8) ∧
    Price.to_millis ⟨5, 1⟩ = .ok ((5 : Int).toNat * 10 ^ (8 - 1)) :=
  ⟨C8_parse_rounds_and_scales.1 "1.5" ⟨15, 1⟩ (by decide) (by decide),
   (C8_parse_rounds_and_scales.2.1 ⟨5, 1⟩ (by decide) (by decide) (by decide)).1⟩

end OracleSpec
